import Mathlib

/-!
Verification development for the hls-downloader repository.

The Rust sources are shallowly embedded: &str parser input is modelled as
List Char, u64 as Nat with an explicit bound check where the code can
overflow, fallible code as Option or Except, and a panic as the none value
of an Option result.  The nom combinators used by src/hls/src/parser.rs are
reproduced with their nom 7 semantics (complete input, first-match
alternation, maximal take_while, loop combinators that reject an iteration
consuming no input).
-/

namespace HlsDownloader

/-! ## Parser combinator model (nom on &str) -/

def P (α : Type) : Type := List Char → Option (List Char × α)

def charP (c : Char) : P Char := fun i =>
  match i with
  | [] => none
  | d :: r => if c == d then some (r, d) else none

def oneOfP (cs : List Char) : P Char := fun i =>
  match i with
  | [] => none
  | d :: r => if cs.contains d then some (r, d) else none

def tagP (t : List Char) : P (List Char) := fun i =>
  if t.isPrefixOf i then some (i.drop t.length, t) else none

def takeWhileP (f : Char → Bool) : P (List Char) := fun i =>
  some (i.dropWhile f, i.takeWhile f)

def takeTillP (f : Char → Bool) : P (List Char) :=
  takeWhileP (fun c => !(f c))

def takeWhile1P (f : Char → Bool) : P (List Char) := fun i =>
  if (i.takeWhile f).isEmpty then none else some (i.dropWhile f, i.takeWhile f)

def isNotP (bad : List Char) : P (List Char) :=
  takeWhile1P (fun c => !(bad.contains c))

def bindP {α β : Type} (p : P α) (f : α → P β) : P β := fun i =>
  match p i with
  | none => none
  | some (i1, a) => f a i1

def mapP {α β : Type} (p : P α) (f : α → β) : P β := fun i =>
  match p i with
  | none => none
  | some (i1, a) => some (i1, f a)

def mapResP {α β : Type} (p : P α) (f : α → Option β) : P β := fun i =>
  match p i with
  | none => none
  | some (i1, a) =>
    match f a with
    | none => none
    | some b => some (i1, b)

def altP {α : Type} (p q : P α) : P α := fun i =>
  match p i with
  | some r => some r
  | none => q i

def optP {α : Type} (p : P α) : P (Option α) := fun i =>
  match p i with
  | some (i1, a) => some (i1, some a)
  | none => some (i, none)

def notP {α : Type} (p : P α) : P Unit := fun i =>
  match p i with
  | some _ => none
  | none => some (i, ())

def peekP {α : Type} (p : P α) : P α := fun i =>
  match p i with
  | some (_, a) => some (i, a)
  | none => none

def valueP {α β : Type} (b : β) (p : P α) : P β := mapP p (fun _ => b)

def precededP {α β : Type} (p : P α) (q : P β) : P β := bindP p (fun _ => q)

def terminatedP {α β : Type} (p : P α) (q : P β) : P α :=
  bindP p (fun a => mapP q (fun _ => a))

def pairP {α β : Type} (p : P α) (q : P β) : P (α × β) :=
  bindP p (fun a => mapP q (fun b => (a, b)))

def separatedPairP {α β γ : Type} (p : P α) (s : P γ) (q : P β) : P (α × β) :=
  pairP (terminatedP p s) q

def delimitedP {α β γ : Type} (a : P α) (p : P β) (b : P γ) : P β :=
  precededP a (terminatedP p b)

def recognizeP {α : Type} (p : P α) : P (List Char) := fun i =>
  match p i with
  | none => none
  | some (i1, _) => some (i1, i.take (i.length - i1.length))

def lineEndingP : P (List Char) := fun i =>
  match i with
  | '\n' :: r => some (r, ['\n'])
  | '\r' :: '\n' :: r => some (r, ['\r', '\n'])
  | _ => none

def foldMany1Go {α β : Type} (p : P α) (g : β → α → β) :
    Nat → List Char → β → Option (List Char × β)
  | 0, _, _ => none
  | fuel + 1, i, acc =>
    match p i with
    | none => some (i, acc)
    | some (i1, a) =>
      if i1.length < i.length then
        foldMany1Go p g fuel i1 (g acc a)
      else none

def foldMany1P {α β : Type} (p : P α) (init : β) (g : β → α → β) : P β := fun i =>
  match p i with
  | none => none
  | some (i1, a) =>
    if i1.length < i.length then
      foldMany1Go p g (i1.length + 1) i1 (g init a)
    else none

def sepList1Go {α γ : Type} (s : P γ) (p : P α) :
    Nat → List Char → List α → Option (List Char × List α)
  | 0, _, _ => none
  | fuel + 1, i, acc =>
    match s i with
    | none => some (i, acc)
    | some (i1, _) =>
      if i1.length < i.length then
        match p i1 with
        | none => some (i, acc)
        | some (i2, a) => sepList1Go s p fuel i2 (acc ++ [a])
      else none

def separatedList1P {α γ : Type} (s : P γ) (p : P α) : P (List α) := fun i =>
  match p i with
  | none => none
  | some (i1, a) => sepList1Go s p (i1.length + 1) i1 [a]

/-! ## src/hls_parser/src/models.rs and the models module of the hls crate:
data produced by the line parser -/

namespace Models

inductive AttributeValue where
  | Integer (n : Nat)
  | Hex (s : List Char)
  | Float (lexeme : List Char)
  | Str (s : List Char)
  | Keyword (s : List Char)
  | Resolution (width height : Nat)
deriving DecidableEq

structure Attribute where
  name : List Char
  value : AttributeValue
deriving DecidableEq

inductive TagArgs where
  | Attributes (attrs : List Attribute)
  | Integer (n : Nat)
  | Str (s : List Char)
  | Float (lexeme : List Char)
deriving DecidableEq

inductive Line where
  | Tag (name : List Char) (args : Option TagArgs)
  | Uri (u : List Char)
deriving DecidableEq

structure Manifest where
  lines : List Line
deriving DecidableEq

end Models

/-! ## src/hls/src/parser.rs -/

def WHITESPACE : List Char := [' ', '\t', '\r', '\n']

def keyword_start : P Char := oneOfP "ABCDEFGHIJKLMNOPQRSTUVWXYZ".toList

def keyword_char (c : Char) : Bool :=
  "ABCDEFGHIJKLMNOPQRSTUVWXYZ-0123456789".toList.contains c

def keyword1 : P (List Char) :=
  recognizeP (pairP keyword_start (takeWhileP keyword_char))

def is_non_string (c : Char) : Bool := "\"\r\n".toList.contains c

def quoted_string : P (List Char) :=
  delimitedP (charP '"') (takeTillP is_non_string) (charP '"')

def nonzeroDigitChars : List Char := "123456789".toList

def dec_digit1 : P (List Char) :=
  altP (tagP ['0'])
    (recognizeP (pairP (oneOfP nonzeroDigitChars) (takeWhileP Char.isDigit)))

def charsToNat (s : List Char) : Nat :=
  s.foldl (fun a c => a * 10 + (c.toNat - 48)) 0

def parse_u64 (s : List Char) : Option Nat :=
  if charsToNat s < 18446744073709551616 then some (charsToNat s) else none

def integer : P Nat := mapResP dec_digit1 parse_u64

def float : P (List Char) :=
  recognizeP
    (pairP (optP (charP '-'))
      (pairP (optP dec_digit1) (pairP (charP '.') (takeWhile1P Char.isDigit))))

def tag_name : P (List Char) :=
  precededP (charP '#')
    (precededP (tagP ['E', 'X', 'T'])
      (precededP (optP (tagP ['-', 'X', '-'])) (takeWhileP keyword_char)))

def is_hex_digit (c : Char) : Bool :=
  c.isDigit || "abcdefABCDEF".toList.contains c

def hex_sequence : P (List Char) :=
  precededP (altP (tagP ['0', 'x']) (tagP ['0', 'X'])) (takeWhile1P is_hex_digit)

def eol_char (c : Char) : Bool := c == '\r' || c == '\n'

def duration_name : P (List Char) :=
  terminatedP (terminatedP float (charP ',')) (takeTillP eol_char)

def comment : P Unit :=
  valueP ()
    (pairP (charP '#')
      (pairP (notP (tagP ['E', 'X', 'T'])) (pairP (takeTillP eol_char) lineEndingP)))

def resolution : P Models.AttributeValue :=
  mapP (separatedPairP integer (charP 'x') integer)
    (fun p => Models.AttributeValue.Resolution p.1 p.2)

def attr_val : P Models.AttributeValue :=
  altP (mapP hex_sequence Models.AttributeValue.Hex)
    (altP resolution
      (altP (mapP float Models.AttributeValue.Float)
        (altP (mapP integer Models.AttributeValue.Integer)
          (altP (mapP quoted_string Models.AttributeValue.Str)
            (mapP keyword1 Models.AttributeValue.Keyword)))))

def attr : P Models.Attribute :=
  mapP (separatedPairP keyword1 (charP '=') attr_val) (fun p => ⟨p.1, p.2⟩)

def attrs : P (List Models.Attribute) := separatedList1P (charP ',') attr

def tag_args : P Models.TagArgs :=
  altP (mapP duration_name Models.TagArgs.Float)
    (altP (mapP attrs Models.TagArgs.Attributes)
      (altP (mapP (terminatedP integer (peekP lineEndingP)) Models.TagArgs.Integer)
        (mapP (isNotP WHITESPACE) Models.TagArgs.Str)))

def maybe_tag_args : P (Option Models.TagArgs) :=
  optP (precededP (charP ':') tag_args)

def playlist_tag : P Models.Line :=
  mapP (terminatedP (pairP tag_name maybe_tag_args) lineEndingP)
    (fun p => Models.Line.Tag p.1 p.2)

def uri : P (List Char) :=
  precededP (notP (charP '#')) (terminatedP (isNotP WHITESPACE) lineEndingP)

def playlist_line : P (Option Models.Line) :=
  altP (mapP lineEndingP (fun _ => none))
    (altP (mapP playlist_tag some)
      (altP (mapP comment (fun _ => none))
        (mapP uri (fun u => some (Models.Line.Uri u)))))

def all_tags : P (List Models.Line) :=
  foldMany1P playlist_line []
    (fun acc l =>
      match l with
      | some l2 => acc ++ [l2]
      | none => acc)

/-! ## Manifest::parse (src/hls_parser/src/models.rs, lines 26-43) and the
error path of Deserializer::from_str (src/hls/src/de.rs, lines 33-43).
On a successful run of all_tags the residual input is only logged and the
parsed lines are returned as success; a hard parser failure is the only
error, and from_str maps it to Error::Syntax. -/

def Models.Manifest.parse (s : List Char) : Option Models.Manifest :=
  match all_tags s with
  | some (_, lines) => some ⟨lines⟩
  | none => none

inductive HlsError where
  | msg (s : List Char)
  | syntaxErr
  | invalidHex
  | trailingCharacters
  | unexpectedEof
deriving DecidableEq

def from_str (input : List Char) : Except HlsError Models.Manifest :=
  match Models.Manifest.parse input with
  | some m => .ok m
  | none => .error .syntaxErr

/-! ## src/hls/src/manifest.rs: the decoded view, exported as hls::{Line, Tag}.
The f64 payloads carried by Inf and FRAME-RATE are never computed with in the
embedded code; each is modelled by the lexeme it was decoded from. -/

namespace Decoded

structure FloatVal where
  lexeme : List Char
deriving DecidableEq

inductive MediaType where
  | audio
  | video
  | subtitles
  | closedCaptions
deriving DecidableEq

inductive PlaylistType where
  | event
  | vod
deriving DecidableEq

inductive HdcpLevel where
  | hdcpNone
  | type0
deriving DecidableEq

structure MediaAttributes where
  media_type : MediaType
  uri : Option String
  group_id : String
  language : Option String
  assoc_language : Option String
  name : String
  default : Option Bool
  autoselect : Option Bool
  forced : Option Bool
  instream_id : Option String
  characteristics : Option String
  channels : Option String
deriving DecidableEq

structure StreamInfAttributes where
  bandwidth : Nat
  average_bandwidth : Option Nat
  codecs : Option String
  resolution : Option String
  frame_rate : Option FloatVal
  hdcp_level : Option HdcpLevel
  audio : Option String
  video : Option String
  subtitles : Option String
  closed_captions : Option String
deriving DecidableEq

inductive EncryptionMethod where
  | aes128
  | noEncryption
  | sampleAes
deriving DecidableEq

structure KeyAttributes where
  method : EncryptionMethod
  uri : Option String
  iv : Option (List Nat)
  keyformat : Option String
  keyformatversions : Option String
deriving DecidableEq

inductive Tag where
  | M3u
  | IndependentSegments
  | Inf (d : FloatVal)
  | Key (a : KeyAttributes)
  | Media (a : MediaAttributes)
  | MediaSequence (n : Nat)
  | Targetduration (n : Nat)
  | Version (n : Nat)
  | PlaylistType (t : PlaylistType)
  | ProgramDateTime (s : String)
  | StreamInf (a : StreamInfAttributes)
  | Unknown
deriving DecidableEq

inductive Line where
  | Tag (t : Tag)
  | Uri (u : String)
deriving DecidableEq

end Decoded

/-! ## src/downloader/src/work_queue.rs -/

namespace Downloader

inductive FileType where
  | Key
  | MediaSegment
deriving DecidableEq

/-- A work item: local_path models the PathBuf parsed from the URL, the
remote URL stays abstract in the type parameter. -/
structure WorkItem (Url : Type) where
  local_path : List Char
  remote_url : Url
  file_type : FileType
deriving DecidableEq

/-! ## src/downloader/src/manifest_watcher.rs -/

inductive FileAdd where
  | Segment (s : String)
  | Key (s : String)
deriving DecidableEq

structure ManifestWatcher where
  first_segment : Nat
  segment_count : Nat
  lines : List Decoded.Line
deriving DecidableEq

def ManifestWatcher.new : ManifestWatcher :=
  { first_segment := 0, segment_count := 0, lines := [] }

/-- The for loop of ManifestWatcher::update. The state is the per-update
counter i (starting at 0) and self.segment_count; the events handed to the
data_added callback are collected in emission order. -/
def updateLoop : Nat → Nat → List Decoded.Line → (Nat × Nat) × List FileAdd
  | i, c, [] => ((i, c), [])
  | i, c, Decoded.Line.Tag (Decoded.Tag.Key attrsv) :: rest =>
    ((updateLoop i c rest).1,
      FileAdd.Key (attrsv.uri.getD "") :: (updateLoop i c rest).2)
  | i, c, Decoded.Line.Uri u :: rest =>
    if i + 1 > c then
      ((updateLoop (i + 1) (c + 1) rest).1,
        FileAdd.Segment u :: (updateLoop (i + 1) (c + 1) rest).2)
    else
      updateLoop (i + 1) c rest
  | i, c, Decoded.Line.Tag _ :: rest => updateLoop i c rest

/-- ManifestWatcher::update: run the loop from i = 0, store the new count and
the new manifest, return the emitted events. -/
def ManifestWatcher.update (w : ManifestWatcher) (new_manifest : List Decoded.Line) :
    ManifestWatcher × List FileAdd :=
  ((({ first_segment := w.first_segment,
       segment_count := (updateLoop 0 w.segment_count new_manifest).1.2,
       lines := new_manifest } : ManifestWatcher)),
    (updateLoop 0 w.segment_count new_manifest).2)

/-- A sequence of update calls over the lifetime of one watcher, with all
emitted events concatenated in order. -/
def runUpdates (w : ManifestWatcher) : List (List Decoded.Line) → ManifestWatcher × List FileAdd
  | [] => (w, [])
  | m :: ms =>
    ((runUpdates (w.update m).1 ms).1,
      (w.update m).2 ++ (runUpdates (w.update m).1 ms).2)

def urisOf (m : List Decoded.Line) : List String :=
  m.filterMap
    (fun l =>
      match l with
      | Decoded.Line.Uri u => some u
      | _ => none)

def uriCount (m : List Decoded.Line) : Nat := (urisOf m).length

def isSegmentEvent : FileAdd → Bool
  | FileAdd.Segment _ => true
  | FileAdd.Key _ => false

def isKeyEvent : FileAdd → Bool
  | FileAdd.Segment _ => false
  | FileAdd.Key _ => true

/-- The Key event a line contributes: every Key tag occurrence maps to one
FileAdd.Key carrying the URI attribute, or the empty string when absent. -/
def keyEventOf : Decoded.Line → Option FileAdd
  | Decoded.Line.Tag (Decoded.Tag.Key a) => some (FileAdd.Key (a.uri.getD ""))
  | _ => none

/-- The segment positions that a run of updates starting at count c emits a
Segment event for: during one update they are the positions strictly above
the incoming count, up to the number of Uri lines of that manifest. -/
def segPositionsFrom (c : Nat) : List (List Decoded.Line) → List Nat
  | [] => []
  | m :: ms =>
    List.range' (c + 1) (uriCount m - c) ++ segPositionsFrom (max c (uriCount m)) ms

/-! ## src/downloader/src/fs.rs -/

/-- The error enum of the url crate (url::ParseError); the code matches only
on RelativeUrlWithoutBase. -/
inductive UrlParseError where
  | emptyHost
  | idnaError
  | invalidPort
  | invalidIpv4Address
  | invalidIpv6Address
  | invalidDomainCharacter
  | relativeUrlWithoutBase
  | relativeUrlWithCannotBeABaseBase
  | setHostOnCannotBeABaseUrl
  | overflow
deriving DecidableEq

/-- The url crate operations used by fs.rs, kept abstract: Url::parse,
Url::join and Url::path. -/
structure UrlOps (Url : Type) where
  parse : List Char → Except UrlParseError Url
  join : Url → List Char → Except UrlParseError Url
  path : Url → List Char

/-- parse_path_from_url (fs.rs lines 10-27): parse the URI as an absolute
URL, fall back to manifest_url.join only on RelativeUrlWithoutBase,
propagate any other error; the local path is the URL path with its first
character removed. The code takes the byte slice [1..] of the path
unconditionally, which panics when the path is empty (the url crate yields
the empty path for non-special URLs such as foo://h or mailto:); url crate
paths are percent-encoded ASCII, so at character granularity the slice
drops exactly the first character of a nonempty path. The outer none
models that panic; a some value is the Result the function returns. -/
def parse_path_from_url {Url : Type} (ops : UrlOps Url) (manifest_url : Url)
    (url : List Char) (file_type : FileType) :
    Option (Except UrlParseError (WorkItem Url)) :=
  match
    ((match ops.parse url with
      | .ok u => .ok u
      | .error e =>
        match e with
        | UrlParseError.relativeUrlWithoutBase => ops.join manifest_url url
        | _ => .error e) : Except UrlParseError Url) with
  | .error e => some (.error e)
  | .ok remote_url =>
    match ops.path remote_url with
    | [] => none
    | _ :: rest => some (.ok ⟨rest, remote_url, file_type⟩)

/-- Rust Path components of the relative paths occurring here: split on the
separator, drop empty and CurDir components. -/
def pathComponents (p : List Char) : List (List Char) :=
  (p.splitOn '/').filter (fun c => !(c.isEmpty || c == ['.']))

/-- Rust Path::parent for the relative paths occurring here: none for the
empty path, otherwise the path without its last component. -/
def pathParent (p : List Char) : Option (List Char) :=
  if (pathComponents p).isEmpty then none
  else some (List.intercalate ['/'] (pathComponents p).dropLast)

def local_base_dir : FileType → List Char
  | FileType.Key => "keys".toList
  | FileType.MediaSegment => "segments".toList

/-- Path::join for the nonempty relative operands used here. -/
def pathJoin (a b : List Char) : List Char :=
  if b.isEmpty then a else a ++ '/' :: b

/-- The directory mkdirp (fs.rs lines 29-50) creates, namely
output_dir / {keys or segments} / parent(local_path). The result none models
the panic of the unconditional .unwrap() on Path::parent. -/
def mkdirp_path {Url : Type} (output_dir : List Char) (w : WorkItem Url) :
    Option (List Char) :=
  match pathParent w.local_path with
  | none => none
  | some par => some (pathJoin (pathJoin output_dir (local_base_dir w.file_type)) par)

/-! ## src/downloader/src/downloader.rs: the Steal::Success arm of
DownloadWorker::run (lines 52-64) -/

/-- reqwest StatusCode::is_success: 2xx. -/
def is_success_status (s : Nat) : Bool := decide (200 ≤ s) && decide (s < 300)

/-- One work item processed by a download worker: the code panics on a
non-success status, then calls mkdirp (whose unwrap can panic), then writes
the body at work_item.local_path. The result none models a panic; a some
result is the (path, body) pair handed to std::fs::write. -/
def workerProcessItem {Url : Type} (output_dir : List Char) (item : WorkItem Url)
    (status : Nat) (body : List Nat) : Option (List Char × List Nat) :=
  if is_success_status status then
    match mkdirp_path output_dir item with
    | none => none
    | some _ => some (item.local_path, body)
  else none

/-- Modelled from the spec (section 6, On-disk output): the destination the
specification states for a work item, output_dir / kind subdirectory /
local_path. Used only to compare the code against the spec. -/
def specWriteDestination {Url : Type} (output_dir : List Char) (item : WorkItem Url) :
    List Char :=
  pathJoin (pathJoin output_dir (local_base_dir item.file_type)) item.local_path

/-- A small concrete instance of the url crate operations, used to
instantiate universally quantified theorems at concrete inputs: a URL is its
text, parsing succeeds exactly for inputs with scheme and authority
http://h, and the path is everything from the first slash after the
authority. -/
def demoUrlOps : UrlOps (List Char) where
  parse := fun s =>
    if ("http://h".toList).isPrefixOf s then .ok s
    else .error UrlParseError.relativeUrlWithoutBase
  join := fun base rel => .ok (base ++ rel)
  path := fun u => (u.drop 7).dropWhile (fun c => !(c == '/'))

/-- A second concrete instance of the url crate operations, modelling a
non-special scheme with an authority and no path: the url crate parses
foo://h as an absolute URL whose path() is the empty string. -/
def demoOpaqueUrlOps : UrlOps (List Char) where
  parse := fun s =>
    if s = "foo://h".toList then .ok s
    else .error UrlParseError.relativeUrlWithoutBase
  join := fun base rel => .ok (base ++ rel)
  path := fun u => u.drop 7

end Downloader

/-! ## Helper lemmas about the manifest watcher loop -/

namespace Downloader

theorem urisOf_nil : urisOf [] = [] := rfl

theorem urisOf_tag (t : Decoded.Tag) (rest : List Decoded.Line) :
    urisOf (Decoded.Line.Tag t :: rest) = urisOf rest := rfl

theorem urisOf_uri (u : String) (rest : List Decoded.Line) :
    urisOf (Decoded.Line.Uri u :: rest) = u :: urisOf rest := rfl

theorem updateLoop_nil (i c : Nat) : updateLoop i c [] = ((i, c), []) := rfl

theorem updateLoop_key (i c : Nat) (a : Decoded.KeyAttributes) (rest : List Decoded.Line) :
    updateLoop i c (Decoded.Line.Tag (Decoded.Tag.Key a) :: rest) =
      ((updateLoop i c rest).1,
        FileAdd.Key (a.uri.getD "") :: (updateLoop i c rest).2) := rfl

theorem updateLoop_uri (i c : Nat) (u : String) (rest : List Decoded.Line) :
    updateLoop i c (Decoded.Line.Uri u :: rest) =
      if i + 1 > c then
        ((updateLoop (i + 1) (c + 1) rest).1,
          FileAdd.Segment u :: (updateLoop (i + 1) (c + 1) rest).2)
      else updateLoop (i + 1) c rest := rfl

theorem updateLoop_tag (i c : Nat) (t : Decoded.Tag) (rest : List Decoded.Line)
    (h : ∀ a, t ≠ Decoded.Tag.Key a) :
    updateLoop i c (Decoded.Line.Tag t :: rest) = updateLoop i c rest := by
  cases t <;> try rfl
  exact absurd rfl (h _)

theorem updateLoop_count (m : List Decoded.Line) :
    ∀ i c : Nat, i ≤ c → (updateLoop i c m).1.2 = max c (i + uriCount m) := by
  induction m with
  | nil =>
    intro i c h
    simp only [updateLoop_nil, uriCount, urisOf_nil, List.length_nil]
    omega
  | cons l rest ih =>
    intro i c h
    rcases l with t | u
    · by_cases hk : ∃ a, t = Decoded.Tag.Key a
      · obtain ⟨a, rfl⟩ := hk
        rw [updateLoop_key]
        simpa only [uriCount, urisOf_tag] using ih i c h
      · rw [updateLoop_tag i c t rest (by intro a ha; exact hk ⟨a, ha⟩)]
        simpa only [uriCount, urisOf_tag] using ih i c h
    · rw [updateLoop_uri]
      by_cases hc : i + 1 > c
      · rw [if_pos hc]
        have h2 := ih (i + 1) (c + 1) (by omega)
        simp only [uriCount, urisOf_uri, List.length_cons] at h2 ⊢
        omega
      · rw [if_neg hc]
        have h2 := ih (i + 1) c (by omega)
        simp only [uriCount, urisOf_uri, List.length_cons] at h2 ⊢
        omega

theorem updateLoop_segments (m : List Decoded.Line) :
    ∀ i c : Nat, i ≤ c →
      ((updateLoop i c m).2).filter isSegmentEvent
        = ((urisOf m).drop (c - i)).map FileAdd.Segment := by
  induction m with
  | nil =>
    intro i c h
    simp [updateLoop_nil, urisOf_nil]
  | cons l rest ih =>
    intro i c h
    rcases l with t | u
    · by_cases hk : ∃ a, t = Decoded.Tag.Key a
      · obtain ⟨a, rfl⟩ := hk
        rw [updateLoop_key]
        simp only [List.filter_cons, urisOf_tag]
        have : isSegmentEvent (FileAdd.Key (a.uri.getD "")) = false := rfl
        rw [this]
        simp only [Bool.false_eq_true, if_false]
        exact ih i c h
      · rw [updateLoop_tag i c t rest (by intro a ha; exact hk ⟨a, ha⟩), urisOf_tag]
        exact ih i c h
    · rw [updateLoop_uri]
      by_cases hc : i + 1 > c
      · have hic : i = c := by omega
        rw [if_pos hc]
        simp only [List.filter_cons, urisOf_uri]
        have : isSegmentEvent (FileAdd.Segment u) = true := rfl
        rw [this]
        simp only [if_true]
        have h2 := ih (i + 1) (c + 1) (by omega)
        have e1 : c + 1 - (i + 1) = 0 := by omega
        have e0 : c - i = 0 := by omega
        rw [e1] at h2
        rw [e0]
        simp only [List.drop_zero] at h2 ⊢
        rw [h2]
        simp
      · rw [if_neg hc]
        have h2 := ih (i + 1) c (by omega)
        have e1 : c - i = (c - (i + 1)) + 1 := by omega
        rw [urisOf_uri, e1, List.drop_succ_cons]
        exact h2

theorem updateLoop_keys (m : List Decoded.Line) :
    ∀ i c : Nat,
      ((updateLoop i c m).2).filter isKeyEvent = m.filterMap keyEventOf := by
  induction m with
  | nil => intro i c; simp [updateLoop_nil]
  | cons l rest ih =>
    intro i c
    rcases l with t | u
    · by_cases hk : ∃ a, t = Decoded.Tag.Key a
      · obtain ⟨a, rfl⟩ := hk
        rw [updateLoop_key]
        simp only [List.filter_cons]
        have h1 : isKeyEvent (FileAdd.Key (a.uri.getD "")) = true := rfl
        rw [h1]
        simp only [if_true]
        have h2 : keyEventOf (Decoded.Line.Tag (Decoded.Tag.Key a))
            = some (FileAdd.Key (a.uri.getD "")) := rfl
        rw [List.filterMap_cons, h2]
        rw [ih i c]
      · rw [updateLoop_tag i c t rest (by intro a ha; exact hk ⟨a, ha⟩)]
        have h2 : keyEventOf (Decoded.Line.Tag t) = none := by
          cases t <;> try rfl
          exact (hk ⟨_, rfl⟩).elim
        rw [List.filterMap_cons, h2]
        exact ih i c
    · rw [updateLoop_uri]
      have h2 : keyEventOf (Decoded.Line.Uri u) = none := rfl
      rw [List.filterMap_cons, h2]
      by_cases hc : i + 1 > c
      · rw [if_pos hc]
        simp only [List.filter_cons]
        have h1 : isKeyEvent (FileAdd.Segment u) = false := rfl
        rw [h1]
        simp only [Bool.false_eq_true, if_false]
        exact ih (i + 1) (c + 1)
      · rw [if_neg hc]
        exact ih (i + 1) c

theorem segPositionsFrom_mem_gt (ms : List (List Decoded.Line)) :
    ∀ (c x : Nat), x ∈ segPositionsFrom c ms → c < x := by
  induction ms with
  | nil => intro c x h; simp [segPositionsFrom] at h
  | cons m ms ih =>
    intro c x h
    rw [segPositionsFrom, List.mem_append] at h
    rcases h with h | h
    · exact (List.mem_range'_1.mp h).1
    · have := ih (max c (uriCount m)) x h
      omega

theorem segPositionsFrom_nodup (ms : List (List Decoded.Line)) :
    ∀ c : Nat, (segPositionsFrom c ms).Nodup := by
  induction ms with
  | nil => intro c; simp [segPositionsFrom]
  | cons m ms ih =>
    intro c
    rw [segPositionsFrom]
    refine List.Nodup.append (List.nodup_range' _ _ 1 (by norm_num)) (ih _) ?_
    intro x hx hy
    have h1 := (List.mem_range'_1.mp hx).2
    have h2 := segPositionsFrom_mem_gt ms _ x hy
    omega

theorem update_events (w : ManifestWatcher) (m : List Decoded.Line) :
    (w.update m).2 = (updateLoop 0 w.segment_count m).2 := rfl

theorem update_count (w : ManifestWatcher) (m : List Decoded.Line) :
    ((w.update m).1).segment_count = max w.segment_count (uriCount m) := by
  have h := updateLoop_count m 0 w.segment_count (Nat.zero_le _)
  simpa using h

theorem update_segments (w : ManifestWatcher) (m : List Decoded.Line) :
    ((w.update m).2).filter isSegmentEvent
      = ((urisOf m).drop w.segment_count).map FileAdd.Segment := by
  rw [update_events]
  have h := updateLoop_segments m 0 w.segment_count (Nat.zero_le _)
  simpa using h

theorem runUpdates_seg_length (ms : List (List Decoded.Line)) :
    ∀ w : ManifestWatcher,
      (((runUpdates w ms).2).filter isSegmentEvent).length
        = (segPositionsFrom w.segment_count ms).length := by
  induction ms with
  | nil => intro w; simp [runUpdates, segPositionsFrom]
  | cons m ms ih =>
    intro w
    rw [runUpdates, segPositionsFrom]
    simp only [List.filter_append, List.length_append, List.length_range']
    rw [update_segments]
    simp only [List.length_map, List.length_drop]
    have hcount : ((w.update m).1).segment_count = max w.segment_count (uriCount m) :=
      update_count w m
    have h2 := ih (w.update m).1
    rw [hcount] at h2
    rw [h2]
    simp [uriCount]

theorem runUpdates_count_mono (ms : List (List Decoded.Line)) :
    ∀ w : ManifestWatcher,
      w.segment_count ≤ ((runUpdates w ms).1).segment_count := by
  induction ms with
  | nil => intro w; simp [runUpdates]
  | cons m ms ih =>
    intro w
    rw [runUpdates]
    have h1 : w.segment_count ≤ ((w.update m).1).segment_count := by
      rw [update_count]; omega
    exact le_trans h1 (ih (w.update m).1)

end Downloader

/-! ## Claims about the manifest watcher -/

open Downloader in
/-- C2: across the lifetime of a ManifestWatcher, each positional segment
index emits at most one FileAdd.Segment event: the positions any run of
updates emits for form a duplicate-free list whose length is exactly the
number of emitted Segment events; one update emits exactly the Uri lines
past the incoming segment_count, so an update whose manifest has at most
segment_count Uri lines emits no Segment event at all. -/
theorem watcher_segment_positions_emit_at_most_once :
    (∀ (c : Nat) (ms : List (List Decoded.Line)), (segPositionsFrom c ms).Nodup) ∧
    (∀ (w : ManifestWatcher) (ms : List (List Decoded.Line)),
        (((runUpdates w ms).2).filter isSegmentEvent).length
          = (segPositionsFrom w.segment_count ms).length) ∧
    (∀ (w : ManifestWatcher) (m : List Decoded.Line),
        ((w.update m).2).filter isSegmentEvent
          = ((urisOf m).drop w.segment_count).map FileAdd.Segment) ∧
    (∀ (w : ManifestWatcher) (m : List Decoded.Line),
        uriCount m ≤ w.segment_count → ((w.update m).2).filter isSegmentEvent = []) := by
  refine ⟨fun c ms => segPositionsFrom_nodup ms c,
    fun w ms => runUpdates_seg_length ms w,
    fun w m => update_segments w m, fun w m h => ?_⟩
  rw [update_segments w m]
  have : (urisOf m).drop w.segment_count = [] := by
    apply List.drop_eq_nil_of_le
    simpa [uriCount] using h
  rw [this]
  rfl

open Downloader in
/-- C2 witness: a concrete watcher at segment_count 2 sees a manifest with a
single Uri line and emits no Segment event; concrete position lists are
duplicate free. -/
theorem watcher_segment_positions_emit_at_most_once_w :
    (segPositionsFrom 0 [[Decoded.Line.Uri "a"],
        [Decoded.Line.Uri "a", Decoded.Line.Uri "b"]]).Nodup ∧
    ((({ first_segment := 0, segment_count := 2, lines := [] } :
        ManifestWatcher).update [Decoded.Line.Uri "x"]).2).filter isSegmentEvent = [] :=
  ⟨watcher_segment_positions_emit_at_most_once.1 0 _,
    watcher_segment_positions_emit_at_most_once.2.2.2 _ _ (by decide)⟩

open Downloader in
/-- C5: every occurrence of a Key tag in the manifest passed to update emits
exactly one FileAdd.Key event carrying the URI attribute (empty string when
absent), independently of the watcher state, so duplicates across updates
all emit and are never coalesced; over a lifetime the Key events are the
concatenation of the per-update occurrence lists. -/
theorem watcher_emits_every_key_occurrence :
    (∀ (w : ManifestWatcher) (m : List Decoded.Line),
        ((w.update m).2).filter isKeyEvent = m.filterMap keyEventOf) ∧
    (∀ (w : ManifestWatcher) (ms : List (List Decoded.Line)),
        ((runUpdates w ms).2).filter isKeyEvent
          = (ms.map (fun m => m.filterMap keyEventOf)).flatten) := by
  constructor
  · intro w m
    rw [update_events]
    exact updateLoop_keys m 0 w.segment_count
  · intro w ms
    induction ms generalizing w with
    | nil => simp [runUpdates]
    | cons m ms ih =>
      rw [runUpdates]
      simp only [List.filter_append, List.map_cons, List.flatten]
      rw [update_events, updateLoop_keys m 0 w.segment_count, ih (w.update m).1]

open Downloader in
/-- C9: after every update the segment_count equals the maximum of the old
count and the number of Uri lines of the new manifest; in particular it
never decreases, across one update or any sequence of updates. -/
theorem watcher_segment_count_is_max :
    ∀ (w : ManifestWatcher) (m : List Decoded.Line) (ms : List (List Decoded.Line)),
      ((w.update m).1).segment_count = max w.segment_count (uriCount m) ∧
      w.segment_count ≤ ((w.update m).1).segment_count ∧
      w.segment_count ≤ ((runUpdates w ms).1).segment_count := by
  intro w m ms
  refine ⟨update_count w m, ?_, runUpdates_count_mono ms w⟩
  rw [update_count]
  omega

/-! ## Claims about the download worker and the path resolver -/

open Downloader in
/-- C1 (code bug): after a successful GET the worker hands std::fs::write
the bare work_item.local_path, while mkdirp has just created the per-kind
directory under output_dir; at a concrete item the written path is
media/seg1.ts, not the destination out/segments/media/seg1.ts that the
specification states and that mkdirp prepared. -/
theorem worker_write_path_ignores_output_dir :
    workerProcessItem "out".toList
        (⟨"media/seg1.ts".toList, (), FileType.MediaSegment⟩ : WorkItem Unit) 200 [7] =
      some ("media/seg1.ts".toList, [7]) ∧
    mkdirp_path "out".toList
        (⟨"media/seg1.ts".toList, (), FileType.MediaSegment⟩ : WorkItem Unit) =
      some "out/segments/media".toList ∧
    specWriteDestination "out".toList
        (⟨"media/seg1.ts".toList, (), FileType.MediaSegment⟩ : WorkItem Unit) =
      "out/segments/media/seg1.ts".toList ∧
    "media/seg1.ts".toList ≠ "out/segments/media/seg1.ts".toList := by
  refine ⟨by decide, by decide, by decide, by decide⟩

open Downloader in
/-- C8 counterexample: a 404 response makes the worker step abort (the
panic is modelled by the none result), refuting the claim that a non-2xx
response is recorded as a failed item and never aborts the worker. -/
theorem worker_panics_on_http_404 :
    workerProcessItem "out".toList
        (⟨"a/b.ts".toList, (), FileType.MediaSegment⟩ : WorkItem Unit) 404 [1] = none := by
  decide

open Downloader in
/-- C8 amended: for every work item and body, a response status outside the
2xx range makes the worker panic and abort the step; nothing is recorded
and no write happens. -/
theorem worker_aborts_on_non_success :
    ∀ (Url : Type) (out : List Char) (item : WorkItem Url) (status : Nat)
      (body : List Nat),
      is_success_status status = false →
      workerProcessItem out item status body = none := by
  intro Url out item status body h
  simp [workerProcessItem, h]

open Downloader in
/-- C8 witness: the amended claim at status 500. -/
theorem worker_aborts_on_non_success_w :
    is_success_status 500 = false ∧
    workerProcessItem "o".toList
        (⟨"x.ts".toList, (), FileType.Key⟩ : WorkItem Unit) 500 [] = none :=
  ⟨by decide,
    worker_aborts_on_non_success Unit "o".toList _ 500 [] (by decide)⟩

open Downloader in
/-- C6 counterexample: the absolute URL foo://h parses, but the url crate
gives it the empty path, so the [1..] slice panics (the none result) and
the resolver returns no work item at all, refuting the claim that for
every input URI that parses as an absolute URL the resolver returns a work
item carrying that URL. -/
theorem parse_path_from_url_panics_on_empty_path :
    demoOpaqueUrlOps.parse "foo://h".toList = .ok "foo://h".toList ∧
    demoOpaqueUrlOps.path "foo://h".toList = [] ∧
    parse_path_from_url demoOpaqueUrlOps "http://h/".toList "foo://h".toList
      FileType.Key = none := by
  refine ⟨rfl, rfl, rfl⟩

open Downloader in
/-- C6 amended: when the resolved URL has a nonempty path, the resolver
behaves as claimed: the parsed URI itself is the remote_url whenever the
URI parses as an absolute URL, regardless of the base; the base join is
used exactly when parsing fails with RelativeUrlWithoutBase; any other
parse error propagates; and the local path is the resolved URL path with
its first character, the leading slash, removed. When the resolved path is
empty the [1..] slice panics and no work item is returned. -/
theorem parse_path_from_url_resolution :
    ∀ (Url : Type) (ops : UrlOps Url) (base : Url) (url : List Char) (k : FileType),
      (∀ u c rest, ops.parse url = .ok u → ops.path u = c :: rest →
          parse_path_from_url ops base url k = some (.ok ⟨rest, u, k⟩)) ∧
      (∀ u, ops.parse url = .ok u → ops.path u = [] →
          parse_path_from_url ops base url k = none) ∧
      (ops.parse url = .error UrlParseError.relativeUrlWithoutBase →
          parse_path_from_url ops base url k =
            (match ops.join base url with
             | .ok u =>
               (match ops.path u with
                | [] => none
                | _ :: rest => some (.ok ⟨rest, u, k⟩))
             | .error e => some (.error e))) ∧
      (∀ e, ops.parse url = .error e → e ≠ UrlParseError.relativeUrlWithoutBase →
          parse_path_from_url ops base url k = some (.error e)) ∧
      (∀ u rest, ops.parse url = .ok u → ops.path u = '/' :: rest →
          parse_path_from_url ops base url k = some (.ok ⟨rest, u, k⟩)) := by
  intro Url ops base url k
  refine ⟨?_, ?_, ?_, ?_, ?_⟩
  · intro u c rest h hp
    simp [parse_path_from_url, h, hp]
  · intro u h hp
    simp [parse_path_from_url, h, hp]
  · intro h
    cases hj : ops.join base url <;> simp [parse_path_from_url, h, hj]
  · intro e h hne
    cases e <;> first
      | exact (hne rfl).elim
      | simp [parse_path_from_url, h]
  · intro u rest h hp
    simp [parse_path_from_url, h, hp]

open Downloader in
/-- C6 witness: with the concrete url model, the absolute URL
http://h/a.ts resolves to itself with local path a.ts. -/
theorem parse_path_from_url_resolution_w :
    parse_path_from_url demoUrlOps "http://h/".toList "http://h/a.ts".toList
        FileType.MediaSegment =
      some (.ok ⟨"a.ts".toList, "http://h/a.ts".toList, FileType.MediaSegment⟩) :=
  (parse_path_from_url_resolution (List Char) demoUrlOps "http://h/".toList
      "http://h/a.ts".toList FileType.MediaSegment).2.2.2.2
    "http://h/a.ts".toList "a.ts".toList (by rfl) (by rfl)

open Downloader in
/-- C10: mkdirp unwraps Path::parent unconditionally; a work item built by
parse_path_from_url from a URL whose path is exactly the root slash has the
empty local path, whose parent is None, so mkdirp panics (the none result)
instead of returning an error, and the whole worker step aborts even on a
success status. -/
theorem mkdirp_unwrap_panics_on_root_path :
    ∀ (Url : Type) (ops : UrlOps Url) (base : Url) (url : List Char) (k : FileType)
      (u : Url) (out : List Char),
      ops.parse url = .ok u → ops.path u = ['/'] →
      ∃ item : WorkItem Url,
        parse_path_from_url ops base url k = some (.ok item) ∧
        item.local_path = [] ∧
        mkdirp_path out item = none ∧
        workerProcessItem out item 200 [] = none := by
  intro Url ops base url k u out h hp
  refine ⟨⟨[], u, k⟩, ?_, rfl, rfl, rfl⟩
  simp [parse_path_from_url, h, hp]

open Downloader in
/-- C10 witness: the URL http://h/ has path consisting of the root slash
alone, and the resulting item makes mkdirp and the worker step panic. -/
theorem mkdirp_unwrap_panics_on_root_path_w :
    ∃ item : WorkItem (List Char),
      parse_path_from_url demoUrlOps "http://x/".toList "http://h/".toList
          FileType.Key = some (.ok item) ∧
      item.local_path = [] ∧
      mkdirp_path "out".toList item = none ∧
      workerProcessItem "out".toList item 200 [] = none :=
  mkdirp_unwrap_panics_on_root_path (List Char) demoUrlOps "http://x/".toList
    "http://h/".toList FileType.Key "http://h/".toList "out".toList
    (by rfl) (by rfl)

/-! ## Helper lemmas about the line parser -/

theorem takeWhile_append_of (f : Char → Bool) :
    ∀ (h rest : List Char), (∀ c ∈ h, f c = true) → (∀ c ∈ rest.take 1, f c = false) →
      (h ++ rest).takeWhile f = h ∧ (h ++ rest).dropWhile f = rest := by
  intro h
  induction h with
  | nil =>
    intro rest _ hr
    cases rest with
    | nil => simp
    | cons a t =>
      have ha : f a = false := hr a (by simp)
      simp [List.takeWhile_cons, List.dropWhile_cons, ha]
  | cons a t ih =>
    intro rest hh hr
    have ha : f a = true := hh a (by simp)
    have h2 := ih rest (fun c hc => hh c (by simp [hc])) hr
    simp [List.takeWhile_cons, List.dropWhile_cons, ha, h2.1, h2.2]

theorem takeWhile1P_eval (f : Char → Bool) (h rest : List Char) (hne : h ≠ [])
    (hh : ∀ c ∈ h, f c = true) (hr : ∀ c ∈ rest.take 1, f c = false) :
    takeWhile1P f (h ++ rest) = some (rest, h) := by
  obtain ⟨tw, dw⟩ := takeWhile_append_of f h rest hh hr
  have he : h.isEmpty = false := by
    cases h with
    | nil => exact absurd rfl hne
    | cons a t => rfl
  simp [takeWhile1P, tw, dw, he]

theorem tagP_cons_ne (c d : Char) (t i : List Char) (h : c ≠ d) :
    tagP (c :: t) (d :: i) = none := by
  have hb : (c == d) = false := beq_eq_false_iff_ne.mpr h
  simp [tagP, List.isPrefixOf, hb]

theorem char_ne_zero_of_nonzero (d : Char)
    (hd : nonzeroDigitChars.contains d = true) : d ≠ '0' := by
  intro h
  rw [h] at hd
  exact absurd hd (by decide)

theorem recognizeP_eval {α : Type} (p : P α) (pre rest : List Char) (a : α)
    (hp : p (pre ++ rest) = some (rest, a)) :
    recognizeP p (pre ++ rest) = some (rest, pre) := by
  simp only [recognizeP, hp]
  have hl : (pre ++ rest).length - rest.length = pre.length := by
    simp [List.length_append]
  rw [hl, List.take_left]

theorem hex_sequence_eval (h rest : List Char) (hne : h ≠ [])
    (hh : ∀ c ∈ h, is_hex_digit c = true)
    (hr : ∀ c ∈ rest.take 1, is_hex_digit c = false) :
    hex_sequence ('0' :: 'x' :: (h ++ rest)) = some (rest, h) := by
  have ht : tagP ['0', 'x'] ('0' :: 'x' :: (h ++ rest)) = some (h ++ rest, ['0', 'x']) := by
    simp [tagP, List.isPrefixOf]
  simp [hex_sequence, precededP, bindP, altP, ht,
    takeWhile1P_eval is_hex_digit h rest hne hh hr]

theorem hex_sequence_fail_nonzero (d : Char) (i : List Char) (hd : d ≠ '0') :
    hex_sequence (d :: i) = none := by
  have h1 : tagP ['0', 'x'] (d :: i) = none := tagP_cons_ne '0' d _ _ (Ne.symm hd)
  have h2 : tagP ['0', 'X'] (d :: i) = none := tagP_cons_ne '0' d _ _ (Ne.symm hd)
  simp [hex_sequence, precededP, bindP, altP, h1, h2]

theorem dec_digit1_eval_nonzero (d : Char) (ds rest : List Char)
    (hd : nonzeroDigitChars.contains d = true)
    (hds : ∀ c ∈ ds, c.isDigit = true)
    (hr : ∀ c ∈ rest.take 1, c.isDigit = false) :
    dec_digit1 ((d :: ds) ++ rest) = some (rest, d :: ds) := by
  have hd0 : d ≠ '0' := char_ne_zero_of_nonzero d hd
  have htag : tagP ['0'] ((d :: ds) ++ rest) = none := by
    rw [List.cons_append]
    exact tagP_cons_ne '0' d _ _ (Ne.symm hd0)
  have hone : oneOfP nonzeroDigitChars ((d :: ds) ++ rest) = some (ds ++ rest, d) := by
    rw [List.cons_append]
    simp only [oneOfP]
    rw [if_pos hd]
  obtain ⟨tw, dw⟩ := takeWhile_append_of Char.isDigit ds rest hds hr
  have hpair : pairP (oneOfP nonzeroDigitChars) (takeWhileP Char.isDigit)
      ((d :: ds) ++ rest) = some (rest, (d, ds)) := by
    simp only [pairP, bindP, mapP, hone, takeWhileP, tw, dw]
  have hrec := recognizeP_eval _ (d :: ds) rest (d, ds) hpair
  simp only [dec_digit1, altP, htag, hrec]

theorem integer_eval_token (t rest : List Char)
    (ht : t = ['0'] ∨ ∃ e es, t = e :: es ∧ nonzeroDigitChars.contains e = true ∧
        (∀ c ∈ es, c.isDigit = true))
    (hb : charsToNat t < 18446744073709551616)
    (hr : ∀ c ∈ rest.take 1, c.isDigit = false) :
    integer (t ++ rest) = some (rest, charsToNat t) := by
  rcases ht with rfl | ⟨e, es, rfl, he, hes⟩
  · have h1 : dec_digit1 (['0'] ++ rest) = some (rest, ['0']) := by
      have ht0 : tagP ['0'] (['0'] ++ rest) = some (rest, ['0']) := by
        simp [tagP, List.isPrefixOf]
      simp only [dec_digit1, altP, ht0]
    simp only [integer, mapResP, h1, parse_u64]
    rw [if_pos hb]
  · have h1 : dec_digit1 ((e :: es) ++ rest) = some (rest, e :: es) :=
      dec_digit1_eval_nonzero e es rest he hes hr
    simp only [integer, mapResP, h1, parse_u64]
    rw [if_pos hb]

theorem resolution_eval (d : Char) (ds t2 rest : List Char)
    (hd : nonzeroDigitChars.contains d = true)
    (hds : ∀ c ∈ ds, c.isDigit = true)
    (hb1 : charsToNat (d :: ds) < 18446744073709551616)
    (ht2 : t2 = ['0'] ∨ ∃ e es, t2 = e :: es ∧ nonzeroDigitChars.contains e = true ∧
        (∀ c ∈ es, c.isDigit = true))
    (hb2 : charsToNat t2 < 18446744073709551616)
    (hr : ∀ c ∈ rest.take 1, c.isDigit = false) :
    resolution ((d :: ds) ++ 'x' :: (t2 ++ rest)) =
      some (rest, Models.AttributeValue.Resolution (charsToNat (d :: ds)) (charsToNat t2)) := by
  have h1 : integer ((d :: ds) ++ ('x' :: (t2 ++ rest)))
      = some ('x' :: (t2 ++ rest), charsToNat (d :: ds)) := by
    apply integer_eval_token (d :: ds) ('x' :: (t2 ++ rest))
      (Or.inr ⟨d, ds, rfl, hd, hds⟩) hb1
    intro c hc
    simp only [List.take_succ_cons, List.take_zero, List.mem_singleton] at hc
    rw [hc]
    rfl
  have h2 : charP 'x' ('x' :: (t2 ++ rest)) = some (t2 ++ rest, 'x') := by
    simp [charP]
  have h3 : integer (t2 ++ rest) = some (rest, charsToNat t2) :=
    integer_eval_token t2 rest ht2 hb2 hr
  simp only [resolution, separatedPairP, pairP, terminatedP, bindP, mapP, h1, h2, h3]

/-! ## Claims about the parser -/

/-- C3 counterexample: on an input whose first line is a well formed tag but
whose second line has no line ending, the parser consumes only the first
line, leaving the residual suffix foo; yet Manifest::parse succeeds with the
parsed prefix and from_str does not fail with Syntax, refuting the claim
that an unconsumed suffix is a hard failure. -/
theorem manifest_parse_accepts_residual_suffix :
    all_tags "#EXTM3U\nfoo".toList =
      some ("foo".toList, [Models.Line.Tag "M3U".toList none]) ∧
    "foo".toList ≠ ([] : List Char) ∧
    Models.Manifest.parse "#EXTM3U\nfoo".toList =
      some ⟨[Models.Line.Tag "M3U".toList none]⟩ ∧
    from_str "#EXTM3U\nfoo".toList = .ok ⟨[Models.Line.Tag "M3U".toList none]⟩ := by
  refine ⟨by decide, by decide, by decide, rfl⟩

/-- C3 amended: a parse that leaves an unconsumed suffix is not an error:
whenever the underlying parser run succeeds, whatever input remains,
Manifest::parse and from_str return the parsed lines as success (there is no
lossy mode switch; the residual is only logged); the Syntax error arises
exactly when the parser run itself fails. -/
theorem from_str_lossy_on_residual :
    (∀ (s r : List Char) (lines : List Models.Line),
        all_tags s = some (r, lines) → from_str s = .ok ⟨lines⟩) ∧
    (∀ s : List Char, all_tags s = none → from_str s = .error HlsError.syntaxErr) := by
  constructor
  · intro s r lines h
    simp [from_str, Models.Manifest.parse, h]
  · intro s h
    simp [from_str, Models.Manifest.parse, h]

/-- C3 witness: the amended claim at a lossy input with residual suffix
x y and at an input on which the parser itself fails. -/
theorem from_str_lossy_on_residual_w :
    from_str "#EXTM3U\nx y".toList = .ok ⟨[Models.Line.Tag "M3U".toList none]⟩ ∧
    from_str "#".toList = .error HlsError.syntaxErr :=
  ⟨from_str_lossy_on_residual.1 _ "x y".toList _ (by decide),
    from_str_lossy_on_residual.2 _ (by decide)⟩

/-- C4 counterexample: tag_name keeps only the part after the hash, EXT and
an optional -X-, so the two inputs of the claim parse to M3U and VERSION,
not to the full on-wire names; this matches the parses_header_tag test of
the source. -/
theorem tag_name_not_full_name :
    tag_name "#EXTM3U".toList = some ([], "M3U".toList) ∧
    "M3U".toList ≠ "EXTM3U".toList ∧
    tag_name "#EXT-X-VERSION:3".toList = some (":3".toList, "VERSION".toList) ∧
    "VERSION".toList ≠ "EXT-X-VERSION".toList := by
  refine ⟨by decide, by decide, by decide, by decide⟩

/-- C4 amended: for every tag line, the name carried by the parser is the
maximal run of keyword characters after the leading hash, EXT and an
optional -X- are stripped: EXT-X-VERSION yields VERSION and EXTM3U yields
M3U. -/
theorem tag_name_strips_ext_prefix :
    ∀ s : List Char,
      tag_name ('#' :: 'E' :: 'X' :: 'T' :: s) =
        (if (['-', 'X', '-']).isPrefixOf s then
          some ((s.drop 3).dropWhile keyword_char, (s.drop 3).takeWhile keyword_char)
        else
          some (s.dropWhile keyword_char, s.takeWhile keyword_char)) := by
  intro s
  by_cases h : (['-', 'X', '-']).isPrefixOf s = true
  · simp [tag_name, precededP, bindP, charP, tagP, optP, takeWhileP,
      List.isPrefixOf, h]
  · simp [tag_name, precededP, bindP, charP, tagP, optP, takeWhileP,
      List.isPrefixOf, h]

/-- C7: the attribute value alternatives are tried hex_sequence first and
resolution before integer, and the first match wins: an input of 0x
followed by a maximal nonempty run of hex digits parses as Hex (never
Integer), and an input of two decimal integer tokens joined by x, whose
first token starts with a nonzero digit (so the input does not start with
0x or 0X), parses as Resolution (never Integer). -/
theorem attr_val_first_match_disambiguation :
    (∀ (h rest : List Char), h ≠ [] →
        (∀ c ∈ h, is_hex_digit c = true) →
        (∀ c ∈ rest.take 1, is_hex_digit c = false) →
        attr_val ('0' :: 'x' :: (h ++ rest)) = some (rest, Models.AttributeValue.Hex h)) ∧
    (∀ (d : Char) (ds t2 rest : List Char),
        nonzeroDigitChars.contains d = true →
        (∀ c ∈ ds, c.isDigit = true) →
        charsToNat (d :: ds) < 18446744073709551616 →
        (t2 = ['0'] ∨ ∃ e es, t2 = e :: es ∧ nonzeroDigitChars.contains e = true ∧
            (∀ c ∈ es, c.isDigit = true)) →
        charsToNat t2 < 18446744073709551616 →
        (∀ c ∈ rest.take 1, c.isDigit = false) →
        attr_val ((d :: ds) ++ 'x' :: (t2 ++ rest)) =
          some (rest, Models.AttributeValue.Resolution
            (charsToNat (d :: ds)) (charsToNat t2))) := by
  constructor
  · intro h rest hne hh hr
    have hx := hex_sequence_eval h rest hne hh hr
    simp only [attr_val, altP, mapP, hx]
  · intro d ds t2 rest hd hds hb1 ht2 hb2 hr
    have hd0 : d ≠ '0' := char_ne_zero_of_nonzero d hd
    have hhex : hex_sequence ((d :: ds) ++ 'x' :: (t2 ++ rest)) = none := by
      rw [List.cons_append]
      exact hex_sequence_fail_nonzero d _ hd0
    have hres := resolution_eval d ds t2 rest hd hds hb1 ht2 hb2 hr
    simp only [attr_val, altP, mapP, hhex, hres]

/-- C7 witness: 0x42 parses as the hex value 42 and 1024x768 as the
resolution 1024 by 768, through the theorem at concrete inputs. -/
theorem attr_val_first_match_disambiguation_w :
    attr_val "0x42".toList = some ([], Models.AttributeValue.Hex ['4', '2']) ∧
    attr_val "1024x768".toList = some ([], Models.AttributeValue.Resolution 1024 768) := by
  constructor
  · have h := attr_val_first_match_disambiguation.1 ['4', '2'] []
      (by decide) (by decide) (by decide)
    have e : "0x42".toList = '0' :: 'x' :: (['4', '2'] ++ []) := by decide
    rw [e]
    exact h
  · have h := attr_val_first_match_disambiguation.2 '1' ['0', '2', '4'] ['7', '6', '8'] []
      (by decide) (by decide) (by decide)
      (Or.inr ⟨'7', ['6', '8'], rfl, by decide, by decide⟩) (by decide) (by decide)
    have e : "1024x768".toList = ('1' :: ['0', '2', '4']) ++ 'x' :: (['7', '6', '8'] ++ []) := by
      decide
    have v1 : charsToNat ('1' :: ['0', '2', '4']) = 1024 := by decide
    have v2 : charsToNat ['7', '6', '8'] = 768 := by decide
    rw [e, h, v1, v2]

end HlsDownloader
